import Mathlib

/-
Shallow embedding of the crawler in `umich-arc-scraper.py` (class `ARCDocScraper`)
and the consumer in `umich-arc-processor.py` (class `ARCDocProcessor`).

URLs are modelled as their `urlparse` decomposition (scheme, netloc, path, query);
`unparse` rebuilds the URL string the Python code passes around.  Fetching
(`requests` + BeautifulSoup) is modelled as an oracle `Url → Option Soup`:
`none` is a fetch failure (non-2xx or transport error, `get_soup` returns None),
`some soup` carries what the extractor reads from the parsed document.  File
writes are modelled as association lists keyed by file name; JSON text is
modelled at the JSON-value level (`Jsonv`), text serialisation being the
faithful stdlib layer.
-/

namespace Arc

/-- A parsed URL, mirroring the fields of Python's `urlparse` that the code
uses: `scheme`, `netloc`, `path`, `query`. -/
structure Url where
  scheme : String
  netloc : String
  path : String
  query : String
deriving DecidableEq, Repr

/-- The URL string corresponding to a parsed URL; this is the string form the
Python code stores in sets, queues and maps. -/
def unparse (u : Url) : String :=
  u.scheme ++ "://" ++ u.netloc ++ u.path ++ (if u.query = "" then "" else "?" ++ u.query)

/-- The host fragment tested by `is_valid_url` and by the enqueue check. -/
def docHost : String := "documentation.its.umich.edu"

/-- The extension blocklist of `is_valid_url` (line 80 of the scraper). -/
def skipExts : List String := [".pdf", ".doc", ".docx", ".jpg", ".png", ".gif"]

/-- Substring test on character lists: `containsSub n h` is true when `n`
occurs contiguously inside `h` (Python's `in` on strings). -/
def containsSub (n : List Char) : List Char → Bool
  | [] => n.isEmpty
  | c :: t => List.isPrefixOf n (c :: t) || containsSub n t

/-- Python's `a in b` substring test on strings. -/
def isSubstringOf (n h : String) : Bool := containsSub n.data h.data

/-- Python's `s.endswith(post)`, structurally on the character lists. -/
def strEndsWith (s post : String) : Bool := List.isSuffixOf post.data s.data

/-- `ARCDocScraper.is_valid_url` (lines 73-82): require the documentation host
as a substring of the netloc, then reject when the full URL string ends with
one of the blocked extensions (note: `url.endswith(ext)`, case-sensitive, on
the whole URL string). -/
def is_valid_url (u : Url) : Bool :=
  if isSubstringOf docHost u.netloc then
    if skipExts.any (fun e => strEndsWith (unparse u) e) then false else true
  else false

/-- A link entry `{url, text}`; in `extract_page_info` the `url` is already
resolved to absolute form by `urljoin`. -/
structure LinkRef where
  url : Url
  text : String
deriving DecidableEq, Repr

/-- The `page_info` dict built by `extract_page_info`. -/
structure PageRecord where
  url : Url
  title : String
  content : String
  links : List LinkRef
deriving DecidableEq, Repr

/-- The `region-content` div, when present: its flattened text
(`get_text(separator='\n', strip=True)`) and its anchors with href, each
already `urljoin`-resolved and with anchor text stripped. -/
structure MainContent where
  text : String
  anchors : List LinkRef
deriving DecidableEq, Repr

/-- What the extractor reads from a parsed document: the stripped title text
when the title element exists, and the main-content region when present. -/
structure Soup where
  title : Option String
  mainContent : Option MainContent
deriving DecidableEq, Repr

/-- `ARCDocScraper.extract_page_info` (lines 84-111): title with "No Title"
fallback, content empty when the region is absent, and links kept only when
`is_valid_url` passes, with "No Link Text" fallback for empty anchor text. -/
def extract_page_info (soup : Soup) (url : Url) : PageRecord :=
  { url := url
    title := soup.title.getD "No Title"
    content := (soup.mainContent.map MainContent.text).getD ""
    links :=
      match soup.mainContent with
      | none => []
      | some m =>
          (m.anchors.filter (fun l => is_valid_url l.url)).map
            (fun l => { url := l.url, text := if l.text = "" then "No Link Text" else l.text }) }

/-- Python regex `\w` restricted to ASCII plus the underscore. -/
def isWordChar (c : Char) : Bool := c.isAlphanum || c = '_'

/-- One step of `re.sub(r'[^\w\-.]', '_', s)`. -/
def sanitizeChar (c : Char) : Char :=
  if isWordChar c || c = '-' || c = '.' then c else '_'

/-- `re.sub(r'[^\w\-.]', '_', s)`. -/
def sanitize (s : String) : String := String.mk (s.data.map sanitizeChar)

/-- Python's `s.replace('/', '_')`, a character-wise substitution. -/
def replaceSlash (s : String) : String :=
  String.mk (s.data.map (fun c => if c = '/' then '_' else c))

/-- The file name computed by `ARCDocScraper.save_page` (lines 116-126):
path with '/' replaced by '_', `index` for an empty path, sanitised, with the
sanitised query appended after '_' when present, plus the `.json` suffix.
Only `path` and `query` of the URL are consulted. -/
def pageFileName (u : Url) : String :=
  let f0 := replaceSlash u.path
  let f1 := if f0 = "" then "index" else f0
  let f2 := sanitize f1
  let f3 := if u.query = "" then f2 else f2 ++ "_" ++ sanitize u.query
  f3 ++ ".json"

/-- JSON values as written and read by `json.dump` / `json.load` for the data
of this repository (strings, arrays, string-keyed objects). -/
inductive Jsonv where
  | str : String → Jsonv
  | arr : List Jsonv → Jsonv
  | obj : List (String × Jsonv) → Jsonv
deriving Repr

/-- A link as it sits on disk inside a page file: plain strings. -/
structure StoredLink where
  url : String
  text : String
deriving DecidableEq, Repr

/-- A page record as it sits on disk: the dict `json.dump` writes. -/
structure StoredRecord where
  url : String
  title : String
  content : String
  links : List StoredLink
deriving DecidableEq, Repr

/-- The dict that `save_page` passes to `json.dump` for a page record. -/
def storeRecord (p : PageRecord) : StoredRecord :=
  { url := unparse p.url
    title := p.title
    content := p.content
    links := p.links.map (fun l => { url := unparse l.url, text := l.text }) }

/-- JSON encoding of one link entry. -/
def encodeLink (l : StoredLink) : Jsonv :=
  .obj [("url", .str l.url), ("text", .str l.text)]

/-- JSON encoding of a stored page record, in the key order of the dict
literal in `extract_page_info`. -/
def encodeRecord (r : StoredRecord) : Jsonv :=
  .obj [("url", .str r.url), ("title", .str r.title), ("content", .str r.content),
        ("links", .arr (r.links.map encodeLink))]

/-- Dict field access `j[k]` on a JSON object. -/
def jfield (j : Jsonv) (k : String) : Option Jsonv :=
  match j with
  | .obj fields => (fields.find? (fun p => p.1 = k)).map Prod.snd
  | _ => none

/-- View a JSON value as a string. -/
def asStr : Jsonv → Option String
  | .str s => some s
  | _ => none

/-- Reading one link entry the way the processor accesses it
(`link['url']`, `link['text']`). -/
def decodeLink (j : Jsonv) : Option StoredLink := do
  let u ← jfield j "url" >>= asStr
  let t ← jfield j "text" >>= asStr
  pure ⟨u, t⟩

/-- Reading every entry of the `links` array. -/
def decodeLinks : List Jsonv → Option (List StoredLink)
  | [] => some []
  | j :: t => do
      let l ← decodeLink j
      let ls ← decodeLinks t
      pure (l :: ls)

/-- Reading a page file the way the processor accesses it
(`page_data['url']`, `page['title']`, `page['content']`, `page['links']`). -/
def decodeRecord (j : Jsonv) : Option StoredRecord := do
  let u ← jfield j "url" >>= asStr
  let t ← jfield j "title" >>= asStr
  let c ← jfield j "content" >>= asStr
  match jfield j "links" with
  | some (.arr xs) => do
      let ls ← decodeLinks xs
      pure ⟨u, t, c, ls⟩
  | _ => none

/-- Association-list read, Python dict `m[k]` as an Option. -/
def getA {κ α : Type} [DecidableEq κ] : List (κ × α) → κ → Option α
  | [], _ => none
  | p :: t, k => if p.1 = k then some p.2 else getA t k

/-- Association-list write, Python dict `m[k] = v` (replace the binding when
the key is present, append otherwise). -/
def setA {κ α : Type} [DecidableEq κ] : List (κ × α) → κ → α → List (κ × α)
  | [], k, v => [(k, v)]
  | p :: t, k, v => if p.1 = k then (k, v) :: t else p :: setA t k v

/-- `ARCDocScraper.save_page` on the modelled disk: write the JSON of the
record under its computed file name, overwriting any previous content. -/
def save_page (disk : List (String × Jsonv)) (p : PageRecord) : List (String × Jsonv) :=
  setA disk (pageFileName p.url) (encodeRecord (storeRecord p))

/-- The file names `ARCDocProcessor.load_data` refuses to read as pages. -/
def reservedFiles : List String := ["index.json", "link_map.json", "visited_urls.json"]

/-- `ARCDocProcessor.load_data` (lines 51-66): read every `.json` file except
the reserved ones, key the parsed dict by its `url` field; a file that fails
to parse is logged and skipped. -/
def load_data (disk : List (String × Jsonv)) : List (String × StoredRecord) :=
  disk.foldl
    (fun pages f =>
      if strEndsWith f.1 ".json" && !(reservedFiles.contains f.1) then
        match decodeRecord f.2 with
        | some r => setA pages r.url r
        | none => pages
      else pages)
    []

/-- The crawler's mutable state: `visited_urls` (insertion order kept for the
model; membership is what the code tests), `pages`, `link_map`, the page files
written by `save_page`, and the sequence of `save_progress` snapshots, each a
(link_map, visited_urls) pair — the file on disk after a snapshot is its last
element, since `save_progress` overwrites. -/
structure CrawlState where
  visited : List Url
  pages : List (Url × PageRecord)
  linkMap : List (Url × List Url)
  disk : List (String × Jsonv)
  checkpoints : List (List (Url × List Url) × List Url)
deriving Repr

/-- Fresh scraper state (`__init__`). -/
def emptyCrawlState : CrawlState := ⟨[], [], [], [], []⟩

/-- `ARCDocScraper.save_progress`: snapshot `link_map` and `visited_urls`,
overwriting the previous snapshot files. -/
def save_progress (st : CrawlState) : CrawlState :=
  { st with checkpoints := st.checkpoints ++ [(st.linkMap, st.visited)] }

/-- Lines 174-176 of the crawl loop: `link_map.setdefault(url, []).append`,
spelled out as the code writes it. -/
def linkMapAdd (m : List (Url × List Url)) (src tgt : Url) : List (Url × List Url) :=
  match getA m src with
  | none => setA m src [tgt]
  | some l => setA m src (l ++ [tgt])

/-- The enqueue host check on line 170: `'documentation.its.umich.edu' in
link_url`, a substring test on the full URL string. -/
def inDocSite (u : Url) : Bool := isSubstringOf docHost (unparse u)

/-- The loop over `page_info['links']` (lines 166-176): for each link, enqueue
its target when it is neither visited nor already queued and lies in the
documentation site, then append the target to `link_map[url]`. -/
def addLinks (visited : List Url) (url : Url) :
    List LinkRef → List Url → List (Url × List Url) → List Url × List (Url × List Url)
  | [], queue, lm => (queue, lm)
  | l :: rest, queue, lm =>
      let queue' :=
        if l.url ∉ visited ∧ l.url ∉ queue then
          if inDocSite l.url then queue ++ [l.url] else queue
        else queue
      addLinks visited url rest queue' (linkMapAdd lm url l.url)

/-- One in-flight configuration of the crawl loop: `urls_to_visit`,
`page_counter` and the scraper state. -/
structure Config where
  queue : List Url
  counter : Nat
  st : CrawlState
deriving Repr

/-- The body of a successful visit (lines 158-180): build the page record,
store it in `pages`, save the page file, run the link loop, and checkpoint
when `page_counter % 10 == 0`.  `st` already has the URL marked visited. -/
def processPage (st : CrawlState) (url : Url) (soup : Soup) (rest : List Url)
    (counter' : Nat) : Config :=
  let pi := extract_page_info soup url
  let st1 := { st with pages := setA st.pages url pi, disk := save_page st.disk pi }
  let qlm := addLinks st1.visited url pi.links rest st1.linkMap
  let st2 := { st1 with linkMap := qlm.2 }
  let st3 := if counter' % 10 = 0 then save_progress st2 else st2
  ⟨qlm.1, counter', st3⟩

/-- One iteration of the `while` loop (lines 142-183): `none` when the loop
guard fails (empty queue or page cap reached); otherwise pop the head, skip it
if visited, else mark visited, count it, fetch, and on failure just continue. -/
def crawlStep (fetch : Url → Option Soup) (maxPages : Nat) (c : Config) : Option Config :=
  match c.queue with
  | [] => none
  | url :: rest =>
      if c.counter < maxPages then
        if url ∈ c.st.visited then some ⟨rest, c.counter, c.st⟩
        else
          let st' := { c.st with visited := c.st.visited ++ [url] }
          match fetch url with
          | none => some ⟨rest, c.counter + 1, st'⟩
          | some soup => some (processPage st' url soup rest (c.counter + 1))
      else none

/-- The crawl loop as iterated steps; `fuel` dominates the number of
iterations of the real loop, which always terminates on finite link graphs. -/
def crawlLoop (fetch : Url → Option Soup) (maxPages : Nat) : Nat → Config → Config
  | 0, c => c
  | fuel + 1, c =>
      match crawlStep fetch maxPages c with
      | none => c
      | some c' => crawlLoop fetch maxPages fuel c'

/-- `MAX_PAGES` (line 35), the configured page cap. -/
def MAX_PAGES : Nat := 1000

/-- Entry of `ARCDocScraper.crawl`: `urls_to_visit = [start_url]`,
`page_counter = 0`, on the current (possibly shared) scraper state. -/
def crawlInit (start : Url) (st : CrawlState) : Config := ⟨[start], 0, st⟩

/-- `ARCDocScraper.crawl` (lines 134-187): run the loop from the seed, then
the unconditional final `save_progress`. -/
def crawl (fetch : Url → Option Soup) (maxPages fuel : Nat) (start : Url)
    (st : CrawlState) : CrawlState :=
  save_progress (crawlLoop fetch maxPages fuel (crawlInit start st)).st

/-- `n`-fold iteration of `crawlStep`; `stepN n c = some c'` says configuration
`c'` occurs in the run started at `c` after `n` loop iterations. -/
def stepN (fetch : Url → Option Soup) (maxPages : Nat) : Nat → Config → Option Config
  | 0, c => some c
  | n + 1, c => (crawlStep fetch maxPages c).bind (stepN fetch maxPages n)

/-- `networkx.DiGraph.add_edge u v text=t`: one text attribute per (u, v)
pair, the last assignment winning. -/
def addEdge (es : List ((String × String) × String)) (u v t : String) :
    List ((String × String) × String) :=
  setA es (u, v) t

/-- `ARCDocProcessor.build_link_graph` (lines 88-112): nodes are the loaded
pages with their titles; edges are the links whose target is itself a loaded
page, labelled by the link text. -/
def build_link_graph (pages : List (String × StoredRecord)) :
    List (String × String) × List ((String × String) × String) :=
  let nodes := pages.map (fun p => (p.1, p.2.title))
  let edges := pages.foldl
    (fun es p =>
      p.2.links.foldl
        (fun es l => if (getA pages l.url).isSome then addEdge es p.1 l.url l.text else es)
        es)
    []
  (nodes, edges)

/-- The frontier invariant of the spec: no duplicate queue entries, and no
queued URL is already visited. -/
def QInv (c : Config) : Prop :=
  c.queue.Nodup ∧ ∀ u ∈ c.queue, u ∉ c.st.visited

instance (c : Config) : Decidable (QInv c) := by
  unfold QInv; infer_instance

/-- The LinkMap/PageStore relation of claim C9: a URL keys `link_map` exactly
when its stored page record has a non-empty `links` sequence, and every
`link_map` key is a visited URL. -/
def Inv (st : CrawlState) : Prop :=
  (∀ u : Url, (getA st.linkMap u).isSome = true → u ∈ st.visited) ∧
  (∀ u : Url, (getA st.linkMap u).isSome = true ↔
    ∃ p, getA st.pages u = some p ∧ p.links ≠ [])

/-! Concrete fixtures used to instantiate the theorems. -/

/-- A seed page URL on the documentation host. -/
def uSeed : Url := ⟨"https", "documentation.its.umich.edu", "/arc", ""⟩

/-- An in-scope documentation URL. -/
def uA : Url := ⟨"https", "documentation.its.umich.edu", "/arc/a", ""⟩

/-- A second in-scope documentation URL. -/
def uB : Url := ⟨"https", "documentation.its.umich.edu", "/arc/b", ""⟩

/-- A PDF URL on the documentation host. -/
def uPdf : Url := ⟨"https", "documentation.its.umich.edu", "/arc/c.pdf", ""⟩

/-- A URL whose path ends in `.PDF` in upper case. -/
def uPDFupper : Url := ⟨"https", "documentation.its.umich.edu", "/file.PDF", ""⟩

/-- A URL whose path ends in `.pdf` but which carries a query string. -/
def uPdfQuery : Url := ⟨"https", "documentation.its.umich.edu", "/file.pdf", "x=1"⟩

/-- A page with two in-scope links and one PDF link. -/
def soupScenario : Soup := ⟨some "T", some ⟨"body", [⟨uA, "a"⟩, ⟨uB, "b"⟩, ⟨uPdf, "c"⟩]⟩⟩

/-- A site where only the seed resolves, to the scenario page. -/
def fetchScenario : Url → Option Soup :=
  fun u => if u = uSeed then some soupScenario else none

/-- A fetcher for which every request fails. -/
def fetchNone : Url → Option Soup := fun _ => none

/-- A seed page with nine outgoing in-scope links. -/
def soup9 : Soup :=
  ⟨some "Index", some ⟨"body",
    [⟨⟨"https", "documentation.its.umich.edu", "/p1", ""⟩, "1"⟩,
     ⟨⟨"https", "documentation.its.umich.edu", "/p2", ""⟩, "2"⟩,
     ⟨⟨"https", "documentation.its.umich.edu", "/p3", ""⟩, "3"⟩,
     ⟨⟨"https", "documentation.its.umich.edu", "/p4", ""⟩, "4"⟩,
     ⟨⟨"https", "documentation.its.umich.edu", "/p5", ""⟩, "5"⟩,
     ⟨⟨"https", "documentation.its.umich.edu", "/p6", ""⟩, "6"⟩,
     ⟨⟨"https", "documentation.its.umich.edu", "/p7", ""⟩, "7"⟩,
     ⟨⟨"https", "documentation.its.umich.edu", "/p8", ""⟩, "8"⟩,
     ⟨⟨"https", "documentation.its.umich.edu", "/p9", ""⟩, "9"⟩]⟩⟩

/-- A site where the seed fetches to the nine-link page and every other
request fails: the tenth visit of the run is a failed fetch. -/
def fetch9 : Url → Option Soup := fun u => if u = uSeed then some soup9 else none

/-- A page record whose URL has an empty path: its page file is `index.json`. -/
def pRoot : PageRecord := ⟨⟨"https", "documentation.its.umich.edu", "", ""⟩, "No Title", "", []⟩

/-- An ordinary page record with one link. -/
def pSeed : PageRecord := ⟨uSeed, "T", "body", [⟨uA, "a"⟩]⟩

/-- A record equal to `pSeed` except for the URL scheme. -/
def pSeedHttp : PageRecord := ⟨⟨"http", "documentation.its.umich.edu", "/arc", ""⟩, "T0", "old", []⟩

/-- A tiny loaded page store: page `a` links to page `b` and to an unknown
page `c`. -/
def pages0 : List (String × StoredRecord) :=
  [("a", ⟨"a", "TA", "ca", [⟨"b", "tb"⟩, ⟨"c", "tc"⟩]⟩),
   ("b", ⟨"b", "TB", "cb", []⟩)]

/-! Association-list laws for the dict model. -/

theorem getA_setA_same {κ α : Type} [DecidableEq κ] (m : List (κ × α)) (k : κ) (v : α) :
    getA (setA m k v) k = some v := by
  induction m with
  | nil => simp [setA, getA]
  | cons p t ih =>
      by_cases h : p.1 = k
      · simp [setA, h, getA]
      · simp [setA, h, getA, ih]

theorem getA_setA_ne {κ α : Type} [DecidableEq κ] (m : List (κ × α)) (k k' : κ) (v : α)
    (h : k' ≠ k) : getA (setA m k v) k' = getA m k' := by
  induction m with
  | nil => simp [setA, getA, Ne.symm h]
  | cons p t ih =>
      by_cases hp : p.1 = k
      · have hk' : ¬(k = k') := Ne.symm h
        have hp' : ¬(p.1 = k') := by rw [hp]; exact hk'
        simp [setA, hp, getA, hk', hp']
      · simp [setA, hp, getA, ih]

theorem linkMapAdd_get_same (m : List (Url × List Url)) (src tgt : Url) :
    getA (linkMapAdd m src tgt) src = some ((getA m src).getD [] ++ [tgt]) := by
  unfold linkMapAdd
  cases h : getA m src <;> simp [h, getA_setA_same]

theorem linkMapAdd_get_ne (m : List (Url × List Url)) (src tgt v : Url) (h : v ≠ src) :
    getA (linkMapAdd m src tgt) v = getA m v := by
  unfold linkMapAdd
  cases hg : getA m src <;> simp [getA_setA_ne _ _ _ _ h]

/-! Laws for the link loop `addLinks`. -/

/-- The link-map half of `addLinks` is a fold of `linkMapAdd` and does not
depend on the queue. -/
theorem addLinks_snd (visited : List Url) (url : Url) (ls : List LinkRef)
    (q : List Url) (lm : List (Url × List Url)) :
    (addLinks visited url ls q lm).2 =
      ls.foldl (fun m l => linkMapAdd m url l.url) lm := by
  induction ls generalizing q lm with
  | nil => rfl
  | cons l rest ih => simp [addLinks, ih]

theorem getA_foldlAdd_ne (url v : Url) (h : v ≠ url) (ls : List LinkRef)
    (m : List (Url × List Url)) :
    getA (ls.foldl (fun m l => linkMapAdd m url l.url) m) v = getA m v := by
  induction ls generalizing m with
  | nil => rfl
  | cons l rest ih => simp [ih, linkMapAdd_get_ne _ _ _ _ h]

theorem getA_foldlAdd_same (url : Url) (ls : List LinkRef) (m : List (Url × List Url)) :
    getA (ls.foldl (fun m l => linkMapAdd m url l.url) m) url =
      if ls.isEmpty then getA m url
      else some ((getA m url).getD [] ++ ls.map (fun l => l.url)) := by
  induction ls generalizing m with
  | nil => rfl
  | cons l rest ih =>
      simp only [List.foldl_cons, ih, List.isEmpty_cons, List.map_cons]
      cases rest with
      | nil => simp [linkMapAdd_get_same]
      | cons l2 rest2 => simp [linkMapAdd_get_same]

/-- The queue half of `addLinks` only appends, and appends only targets that
are unvisited, in the documentation site, and not yet queued. -/
theorem addLinks_fst_ext (visited : List Url) (url : Url) (ls : List LinkRef)
    (q : List Url) (lm : List (Url × List Url)) :
    ∃ ext, (addLinks visited url ls q lm).1 = q ++ ext ∧
      ∀ x ∈ ext, x ∉ visited ∧ inDocSite x = true := by
  induction ls generalizing q lm with
  | nil => exact ⟨[], by simp [addLinks]⟩
  | cons l rest ih =>
      simp only [addLinks]
      by_cases h1 : l.url ∉ visited ∧ l.url ∉ q
      · by_cases h2 : inDocSite l.url
        · rw [if_pos h1, if_pos h2]
          obtain ⟨ext, hext, hall⟩ := ih (q ++ [l.url]) (linkMapAdd lm url l.url)
          refine ⟨l.url :: ext, by simpa using hext, ?_⟩
          intro x hx
          rcases List.mem_cons.mp hx with rfl | hx
          · exact ⟨h1.1, h2⟩
          · exact hall x hx
        · rw [if_pos h1, if_neg h2]
          exact ih q (linkMapAdd lm url l.url)
      · rw [if_neg h1]
        exact ih q (linkMapAdd lm url l.url)

/-- `addLinks` preserves the frontier invariant: distinct queue entries, none
of them visited. -/
theorem addLinks_qinv (visited : List Url) (url : Url) (ls : List LinkRef)
    (q : List Url) (lm : List (Url × List Url))
    (hnd : q.Nodup) (hdis : ∀ x ∈ q, x ∉ visited) :
    (addLinks visited url ls q lm).1.Nodup ∧
      ∀ x ∈ (addLinks visited url ls q lm).1, x ∉ visited := by
  induction ls generalizing q lm with
  | nil => exact ⟨hnd, hdis⟩
  | cons l rest ih =>
      simp only [addLinks]
      by_cases h1 : l.url ∉ visited ∧ l.url ∉ q
      · by_cases h2 : inDocSite l.url
        · rw [if_pos h1, if_pos h2]
          refine ih (q ++ [l.url]) (linkMapAdd lm url l.url) ?_ ?_
          · simp [List.nodup_append, hnd, h1.2]
          · intro x hx
            rcases List.mem_append.mp hx with hx | hx
            · exact hdis x hx
            · simp at hx; exact hx ▸ h1.1
        · rw [if_pos h1, if_neg h2]
          exact ih q (linkMapAdd lm url l.url) hnd hdis
      · rw [if_neg h1]
        exact ih q (linkMapAdd lm url l.url) hnd hdis

/-! Projections of `processPage`. -/

theorem processPage_visited (st : CrawlState) (url : Url) (soup : Soup)
    (rest : List Url) (k : Nat) :
    (processPage st url soup rest k).st.visited = st.visited := by
  simp only [processPage]
  split <;> simp [save_progress]

theorem processPage_counter (st : CrawlState) (url : Url) (soup : Soup)
    (rest : List Url) (k : Nat) :
    (processPage st url soup rest k).counter = k := rfl

theorem processPage_queue (st : CrawlState) (url : Url) (soup : Soup)
    (rest : List Url) (k : Nat) :
    (processPage st url soup rest k).queue =
      (addLinks st.visited url (extract_page_info soup url).links rest st.linkMap).1 := rfl

theorem processPage_pages (st : CrawlState) (url : Url) (soup : Soup)
    (rest : List Url) (k : Nat) :
    (processPage st url soup rest k).st.pages =
      setA st.pages url (extract_page_info soup url) := by
  simp only [processPage]
  split <;> simp [save_progress]

theorem processPage_linkMap (st : CrawlState) (url : Url) (soup : Soup)
    (rest : List Url) (k : Nat) :
    (processPage st url soup rest k).st.linkMap =
      (addLinks st.visited url (extract_page_info soup url).links rest st.linkMap).2 := by
  simp only [processPage]
  split <;> simp [save_progress]

theorem processPage_checkpoints (st : CrawlState) (url : Url) (soup : Soup)
    (rest : List Url) (k : Nat) :
    (processPage st url soup rest k).st.checkpoints =
      if k % 10 = 0 then
        st.checkpoints ++ [((processPage st url soup rest k).st.linkMap, st.visited)]
      else st.checkpoints := by
  simp only [processPage, processPage_linkMap]
  split <;> simp [save_progress]

/-! Characterisation of one loop iteration. -/

theorem crawlStep_skip (fetch : Url → Option Soup) (mp : Nat) (u : Url)
    (rest : List Url) (k : Nat) (st : CrawlState)
    (hk : k < mp) (hv : u ∈ st.visited) :
    crawlStep fetch mp ⟨u :: rest, k, st⟩ = some ⟨rest, k, st⟩ := by
  simp [crawlStep, hk, hv]

theorem crawlStep_fail (fetch : Url → Option Soup) (mp : Nat) (u : Url)
    (rest : List Url) (k : Nat) (st : CrawlState)
    (hk : k < mp) (hv : u ∉ st.visited) (hf : fetch u = none) :
    crawlStep fetch mp ⟨u :: rest, k, st⟩ =
      some ⟨rest, k + 1, { st with visited := st.visited ++ [u] }⟩ := by
  simp [crawlStep, hk, hv, hf]

theorem crawlStep_success (fetch : Url → Option Soup) (mp : Nat) (u : Url)
    (rest : List Url) (k : Nat) (st : CrawlState) (soup : Soup)
    (hk : k < mp) (hv : u ∉ st.visited) (hf : fetch u = some soup) :
    crawlStep fetch mp ⟨u :: rest, k, st⟩ =
      some (processPage { st with visited := st.visited ++ [u] } u soup rest (k + 1)) := by
  simp [crawlStep, hk, hv, hf]

/-- Inversion: every successful step is a skip, a failed visit, or a
successful visit. -/
theorem crawlStep_cases (fetch : Url → Option Soup) (mp : Nat) (c c' : Config)
    (h : crawlStep fetch mp c = some c') :
    ∃ u rest, c.queue = u :: rest ∧ c.counter < mp ∧
      ((u ∈ c.st.visited ∧ c' = ⟨rest, c.counter, c.st⟩) ∨
       (u ∉ c.st.visited ∧
         ((fetch u = none ∧
             c' = ⟨rest, c.counter + 1, { c.st with visited := c.st.visited ++ [u] }⟩) ∨
          (∃ soup, fetch u = some soup ∧
             c' = processPage { c.st with visited := c.st.visited ++ [u] } u soup rest
                    (c.counter + 1))))) := by
  obtain ⟨q, k, st⟩ := c
  cases q with
  | nil => simp [crawlStep] at h
  | cons u rest =>
      refine ⟨u, rest, rfl, ?_⟩
      by_cases hk : k < mp
      · refine ⟨hk, ?_⟩
        by_cases hv : u ∈ st.visited
        · left
          rw [crawlStep_skip fetch mp u rest k st hk hv] at h
          exact ⟨hv, (Option.some_injective _ h).symm⟩
        · right
          refine ⟨hv, ?_⟩
          cases hf : fetch u with
          | none =>
              left
              rw [crawlStep_fail fetch mp u rest k st hk hv hf] at h
              exact ⟨rfl, (Option.some_injective _ h).symm⟩
          | some soup =>
              right
              rw [crawlStep_success fetch mp u rest k st soup hk hv hf] at h
              exact ⟨soup, rfl, (Option.some_injective _ h).symm⟩
      · simp [crawlStep, hk] at h

/-! Run-level invariants. -/

theorem visited_mono_step (fetch : Url → Option Soup) (mp : Nat) (c c' : Config)
    (h : crawlStep fetch mp c = some c') : c.st.visited ⊆ c'.st.visited := by
  obtain ⟨u, rest, -, -, hcase⟩ := crawlStep_cases fetch mp c c' h
  rcases hcase with ⟨-, rfl⟩ | ⟨-, ⟨-, rfl⟩ | ⟨soup, -, rfl⟩⟩
  · exact fun x hx => hx
  · exact fun x hx => List.mem_append_left _ hx
  · rw [processPage_visited]
    exact fun x hx => List.mem_append_left _ hx

theorem visited_mono_stepN (fetch : Url → Option Soup) (mp n : Nat) (c c' : Config)
    (h : stepN fetch mp n c = some c') : c.st.visited ⊆ c'.st.visited := by
  induction n generalizing c with
  | zero =>
      simp only [stepN] at h
      exact (Option.some_injective _ h) ▸ fun x hx => hx
  | succ n ih =>
      simp only [stepN] at h
      cases hs : crawlStep fetch mp c with
      | none => rw [hs] at h; simp at h
      | some c1 =>
          rw [hs] at h
          exact fun x hx => ih c1 h (visited_mono_step fetch mp c c1 hs hx)

/-- Each counted visit adds exactly one URL to the visited list: the counter
delta equals the visited-length delta along any run fragment. -/
theorem visited_length_stepN (fetch : Url → Option Soup) (mp n : Nat) (c c' : Config)
    (h : stepN fetch mp n c = some c') :
    c'.st.visited.length + c.counter = c.st.visited.length + c'.counter := by
  induction n generalizing c with
  | zero =>
      simp only [stepN] at h
      rw [← Option.some_injective _ h]
  | succ n ih =>
      simp only [stepN] at h
      cases hs : crawlStep fetch mp c with
      | none => rw [hs] at h; simp at h
      | some c1 =>
          rw [hs] at h
          have h1 := ih c1 h
          obtain ⟨u, rest, -, -, hcase⟩ := crawlStep_cases fetch mp c c1 hs
          rcases hcase with ⟨-, rfl⟩ | ⟨-, ⟨-, rfl⟩ | ⟨soup, -, rfl⟩⟩
          · dsimp only at h1
            omega
          · dsimp only at h1
            simp only [List.length_append, List.length_cons, List.length_nil] at h1
            omega
          · rw [processPage_visited, processPage_counter] at h1
            dsimp only at h1
            simp only [List.length_append, List.length_cons, List.length_nil] at h1
            omega

/-- The visited list grows by at most `maxPages - counter` along the loop. -/
theorem visited_bound_crawlLoop (fetch : Url → Option Soup) (mp fuel : Nat) (c : Config) :
    (crawlLoop fetch mp fuel c).st.visited.length ≤
      c.st.visited.length + (mp - c.counter) := by
  induction fuel generalizing c with
  | zero => simp [crawlLoop]
  | succ fuel ih =>
      simp only [crawlLoop]
      cases hs : crawlStep fetch mp c with
      | none => simp
      | some c1 =>
          have h1 := ih c1
          obtain ⟨u, rest, -, hk, hcase⟩ := crawlStep_cases fetch mp c c1 hs
          rcases hcase with ⟨-, rfl⟩ | ⟨-, ⟨-, rfl⟩ | ⟨soup, -, rfl⟩⟩
          · dsimp only at h1
            exact h1.trans (by omega)
          · dsimp only at h1
            simp only [List.length_append, List.length_cons, List.length_nil] at h1
            exact h1.trans (by omega)
          · rw [processPage_visited, processPage_counter] at h1
            dsimp only at h1
            simp only [List.length_append, List.length_cons, List.length_nil] at h1
            exact h1.trans (by omega)

/-- One iteration preserves the frontier invariant. -/
theorem qinv_step (fetch : Url → Option Soup) (mp : Nat) (c c' : Config)
    (hq : QInv c) (h : crawlStep fetch mp c = some c') : QInv c' := by
  obtain ⟨u, rest, hqueue, -, hcase⟩ := crawlStep_cases fetch mp c c' h
  have hnd : (u :: rest).Nodup := hqueue ▸ hq.1
  have hdis : ∀ x ∈ u :: rest, x ∉ c.st.visited := fun x hx => hq.2 x (hqueue ▸ hx)
  rcases hcase with ⟨-, rfl⟩ | ⟨hv, ⟨-, rfl⟩ | ⟨soup, -, rfl⟩⟩
  · exact ⟨hnd.of_cons, fun x hx => hdis x (List.mem_cons_of_mem u hx)⟩
  · refine ⟨hnd.of_cons, fun x hx hmem => ?_⟩
    rcases List.mem_append.mp hmem with hm | hm
    · exact hdis x (List.mem_cons_of_mem u hx) hm
    · simp at hm
      exact (List.nodup_cons.mp hnd).1 (hm ▸ hx)
  · constructor
    · rw [processPage_queue]
      refine (addLinks_qinv _ u _ rest _ hnd.of_cons ?_).1
      intro x hx hmem
      rcases List.mem_append.mp hmem with hm | hm
      · exact hdis x (List.mem_cons_of_mem u hx) hm
      · simp at hm
        exact (List.nodup_cons.mp hnd).1 (hm ▸ hx)
    · rw [processPage_queue, processPage_visited]
      refine (addLinks_qinv _ u _ rest _ hnd.of_cons ?_).2
      intro x hx hmem
      rcases List.mem_append.mp hmem with hm | hm
      · exact hdis x (List.mem_cons_of_mem u hx) hm
      · simp at hm
        exact (List.nodup_cons.mp hnd).1 (hm ▸ hx)

theorem qinv_stepN (fetch : Url → Option Soup) (mp n : Nat) (c c' : Config)
    (hq : QInv c) (h : stepN fetch mp n c = some c') : QInv c' := by
  induction n generalizing c with
  | zero =>
      simp only [stepN] at h
      exact (Option.some_injective _ h) ▸ hq
  | succ n ih =>
      simp only [stepN] at h
      cases hs : crawlStep fetch mp c with
      | none => rw [hs] at h; simp at h
      | some c1 =>
          rw [hs] at h
          exact ih c1 (qinv_step fetch mp c c1 hq hs) h

/-- One iteration preserves the link-map/page-store relation. -/
theorem inv_step (fetch : Url → Option Soup) (mp : Nat) (c c' : Config)
    (hi : Inv c.st) (h : crawlStep fetch mp c = some c') : Inv c'.st := by
  obtain ⟨u, rest, -, -, hcase⟩ := crawlStep_cases fetch mp c c' h
  rcases hcase with ⟨-, rfl⟩ | ⟨hv, ⟨-, rfl⟩ | ⟨soup, -, rfl⟩⟩
  · exact hi
  · exact ⟨fun x hx => List.mem_append_left _ (hi.1 x hx), hi.2⟩
  · have hlm : (processPage { c.st with visited := c.st.visited ++ [u] } u soup rest
        (c.counter + 1)).st.linkMap =
        (extract_page_info soup u).links.foldl
          (fun m l => linkMapAdd m u l.url) c.st.linkMap := by
      rw [processPage_linkMap, addLinks_snd]
    have hpg := processPage_pages { c.st with visited := c.st.visited ++ [u] } u soup rest
        (c.counter + 1)
    have hvis := processPage_visited { c.st with visited := c.st.visited ++ [u] } u soup rest
        (c.counter + 1)
    have hfresh : getA c.st.linkMap u = none := by
      cases hg : getA c.st.linkMap u with
      | none => rfl
      | some l => exact absurd (hi.1 u (by simp [hg])) hv
    constructor
    · intro x hx
      rw [hvis]
      by_cases hxu : x = u
      · simp [hxu]
      · rw [hlm, getA_foldlAdd_ne u x hxu] at hx
        exact List.mem_append_left _ (hi.1 x hx)
    · intro x
      by_cases hxu : x = u
      · subst hxu
        rw [hlm, getA_foldlAdd_same, hpg, getA_setA_same, hfresh]
        cases hl : (extract_page_info soup x).links with
        | nil => simp [hl]
        | cons a as => simp [hl]
      · rw [hlm, getA_foldlAdd_ne u x hxu, hpg, getA_setA_ne _ _ _ _ hxu]
        exact hi.2 x

theorem inv_crawlLoop (fetch : Url → Option Soup) (mp fuel : Nat) (c : Config)
    (hi : Inv c.st) : Inv (crawlLoop fetch mp fuel c).st := by
  induction fuel generalizing c with
  | zero => exact hi
  | succ fuel ih =>
      simp only [crawlLoop]
      cases hs : crawlStep fetch mp c with
      | none => exact hi
      | some c1 => exact ih c1 (inv_step fetch mp c c1 hi hs)

theorem inv_save_progress (st : CrawlState) (hi : Inv st) : Inv (save_progress st) := hi

theorem inv_crawl (fetch : Url → Option Soup) (mp fuel : Nat) (start : Url)
    (st : CrawlState) (hi : Inv st) : Inv (crawl fetch mp fuel start st) :=
  inv_save_progress _ (inv_crawlLoop fetch mp fuel (crawlInit start st) hi)

/-- The empty scraper state satisfies the link-map/page-store relation. -/
theorem inv_empty : Inv emptyCrawlState := by
  constructor
  · intro u hx
    simp [emptyCrawlState, getA] at hx
  · intro u
    simp [emptyCrawlState, getA]

/-! Serialisation round trip. -/

theorem decodeLink_encodeLink (l : StoredLink) : decodeLink (encodeLink l) = some l := by
  simp [decodeLink, encodeLink, jfield, asStr, List.find?]

theorem decodeLinks_encode (ls : List StoredLink) :
    decodeLinks (ls.map encodeLink) = some ls := by
  induction ls with
  | nil => rfl
  | cons l t ih => simp [decodeLinks, decodeLink_encodeLink, ih]

theorem decodeRecord_encodeRecord (r : StoredRecord) :
    decodeRecord (encodeRecord r) = some r := by
  simp [decodeRecord, encodeRecord, jfield, asStr, List.find?, decodeLinks_encode]

theorem strEndsWith_append (s t : String) : strEndsWith (s ++ t) t = true := by
  unfold strEndsWith
  rw [String.data_append]
  exact List.isSuffixOf_iff_suffix.mpr (List.suffix_append s.data t.data)

/-- Every page file name carries the `.json` suffix. -/
theorem pageFileName_json (u : Url) : strEndsWith (pageFileName u) ".json" = true := by
  unfold pageFileName
  exact strEndsWith_append _ _

/-! Laws for the link-graph build. -/

theorem getA_isSome_of_mem {κ α : Type} [DecidableEq κ] (m : List (κ × α)) (p : κ × α)
    (h : p ∈ m) : (getA m p.1).isSome = true := by
  induction m with
  | nil => simp at h
  | cons q t ih =>
      rcases List.mem_cons.mp h with rfl | h
      · simp [getA]
      · by_cases hq : q.1 = p.1 <;> simp [getA, hq, ih h]

theorem setA_mem_key {κ α : Type} [DecidableEq κ] (m : List (κ × α)) (k : κ) (v : α)
    (p : κ × α) (h : p ∈ setA m k v) : p.1 = k ∨ p ∈ m := by
  induction m with
  | nil =>
      simp [setA] at h
      exact Or.inl (by rw [h])
  | cons q t ih =>
      by_cases hq : q.1 = k
      · rw [setA, if_pos hq] at h
        rcases List.mem_cons.mp h with rfl | h
        · exact Or.inl rfl
        · exact Or.inr (List.mem_cons_of_mem q h)
      · rw [setA, if_neg hq] at h
        rcases List.mem_cons.mp h with rfl | h
        · exact Or.inr (List.mem_cons_self _ _)
        · rcases ih h with h | h
          · exact Or.inl h
          · exact Or.inr (List.mem_cons_of_mem q h)

/-- The inner fold of `build_link_graph` adds only edges from `src` to known
targets. -/
theorem edges_inner_pred (pages : List (String × StoredRecord)) (src : String)
    (hsrc : (getA pages src).isSome = true) (ls : List StoredLink)
    (es : List ((String × String) × String))
    (hes : ∀ e ∈ es, (getA pages e.1.1).isSome = true ∧ (getA pages e.1.2).isSome = true) :
    ∀ e ∈ ls.foldl
        (fun es l => if (getA pages l.url).isSome then addEdge es src l.url l.text else es)
        es,
      (getA pages e.1.1).isSome = true ∧ (getA pages e.1.2).isSome = true := by
  induction ls generalizing es with
  | nil => exact hes
  | cons l rest ih =>
      simp only [List.foldl_cons]
      by_cases ht : (getA pages l.url).isSome = true
      · rw [if_pos ht]
        refine ih _ ?_
        intro e he
        rcases setA_mem_key es (src, l.url) l.text e he with hk | hm
        · rw [hk]
          exact ⟨hsrc, ht⟩
        · exact hes e hm
      · rw [if_neg ht]
        exact ih _ hes

/-- The outer fold of `build_link_graph` adds only edges between known pages,
as long as the iterated sources are known pages. -/
theorem edges_outer_pred (pages : List (String × StoredRecord))
    (ps : List (String × StoredRecord)) (hps : ∀ p ∈ ps, (getA pages p.1).isSome = true)
    (es : List ((String × String) × String))
    (hes : ∀ e ∈ es, (getA pages e.1.1).isSome = true ∧ (getA pages e.1.2).isSome = true) :
    ∀ e ∈ ps.foldl
        (fun es p =>
          p.2.links.foldl
            (fun es l => if (getA pages l.url).isSome then addEdge es p.1 l.url l.text else es)
            es)
        es,
      (getA pages e.1.1).isSome = true ∧ (getA pages e.1.2).isSome = true := by
  induction ps generalizing es with
  | nil => exact hes
  | cons p rest ih =>
      simp only [List.foldl_cons]
      refine ih (fun q hq => hps q (List.mem_cons_of_mem p hq)) _ ?_
      exact edges_inner_pred pages p.1 (hps p (List.mem_cons_self p rest)) p.2.links es hes

/-! Claim theorems. -/

/-- C1 (counterexample): in the scenario page with two in-scope links and one
PDF link, `LinkMap[seed]` holds only the two classifier-approved targets, not
all three raw targets as the claim states: the PDF target is absent. -/
theorem c1_linkmap_not_raw :
    is_valid_url uA = true ∧ is_valid_url uB = true ∧ is_valid_url uPdf = false ∧
    (getA (crawl fetchScenario 1000 10 uSeed emptyCrawlState).pages uSeed).map
        PageRecord.links = some [⟨uA, "a"⟩, ⟨uB, "b"⟩] ∧
    getA (crawl fetchScenario 1000 10 uSeed emptyCrawlState).linkMap uSeed =
      some [uA, uB] ∧
    uPdf ∉ [uA, uB] := by
  refine ⟨rfl, rfl, rfl, rfl, rfl, by decide⟩

/-- C1 (amended): on a successful visit of a fresh URL, `PageRecord.links`
holds exactly the classifier-approved links, and `LinkMap[url]` receives
exactly the URLs of those same filtered links — not the raw pre-filter set;
when no link passes, the URL gets no `LinkMap` entry at all. -/
theorem c1_linkmap_filtered (fetch : Url → Option Soup) (mp : Nat) (u : Url)
    (rest : List Url) (k : Nat) (st : CrawlState) (soup : Soup)
    (hk : k < mp) (hv : u ∉ st.visited) (hf : fetch u = some soup)
    (hlm : getA st.linkMap u = none) :
    crawlStep fetch mp ⟨u :: rest, k, st⟩ =
      some (processPage { st with visited := st.visited ++ [u] } u soup rest (k + 1)) ∧
    getA (processPage { st with visited := st.visited ++ [u] } u soup rest
        (k + 1)).st.pages u = some (extract_page_info soup u) ∧
    getA (processPage { st with visited := st.visited ++ [u] } u soup rest
        (k + 1)).st.linkMap u =
      (if (extract_page_info soup u).links.isEmpty then none
       else some ((extract_page_info soup u).links.map (fun l => l.url))) ∧
    ∀ l ∈ (extract_page_info soup u).links, is_valid_url l.url = true := by
  refine ⟨crawlStep_success fetch mp u rest k st soup hk hv hf, ?_, ?_, ?_⟩
  · rw [processPage_pages, getA_setA_same]
  · rw [processPage_linkMap, addLinks_snd, getA_foldlAdd_same, hlm]
    cases (extract_page_info soup u).links <;> simp
  · intro l hl
    unfold extract_page_info at hl
    cases hm : soup.mainContent with
    | none => rw [hm] at hl; simp at hl
    | some m =>
        rw [hm] at hl
        simp only [List.mem_map, List.mem_filter] at hl
        obtain ⟨a, ⟨-, ha⟩, rfl⟩ := hl
        exact ha

/-- C1 witness: the amended statement at the scenario page. -/
theorem c1_linkmap_filtered_witness :
    getA (processPage { emptyCrawlState with visited := [] ++ [uSeed] } uSeed soupScenario []
        (0 + 1)).st.linkMap uSeed =
      (if (extract_page_info soupScenario uSeed).links.isEmpty then none
       else some ((extract_page_info soupScenario uSeed).links.map (fun l => l.url))) :=
  (c1_linkmap_filtered fetchScenario 1000 uSeed [] 0 emptyCrawlState soupScenario
    (by decide) (by decide) rfl rfl).2.2.1

/-- C2: a dequeued fresh URL whose fetch fails is marked visited, counts one
visit, produces no page record and no links, and the crawl moves to the next
frontier item; a URL already visited is skipped untouched on any later
dequeue, and the visited set only ever grows along a run. -/
theorem c2_fetch_failure (fetch : Url → Option Soup) (mp : Nat) (u : Url)
    (rest : List Url) (k : Nat) (st : CrawlState)
    (hk : k < mp) (hv : u ∉ st.visited) (hf : fetch u = none) :
    crawlStep fetch mp ⟨u :: rest, k, st⟩ =
      some ⟨rest, k + 1, { st with visited := st.visited ++ [u] }⟩ ∧
    (∀ rest' k' st', u ∈ CrawlState.visited st' → k' < mp →
      crawlStep fetch mp ⟨u :: rest', k', st'⟩ = some ⟨rest', k', st'⟩) ∧
    (∀ n c c', stepN fetch mp n c = some c' → c.st.visited ⊆ c'.st.visited) :=
  ⟨crawlStep_fail fetch mp u rest k st hk hv hf,
   fun rest' k' st' hv' hk' => crawlStep_skip fetch mp u rest' k' st' hk' hv',
   fun n c c' h => visited_mono_stepN fetch mp n c c' h⟩

/-- C2 witness: the failed-fetch step at a concrete configuration. -/
theorem c2_fetch_failure_witness :
    crawlStep fetchNone 5 ⟨[uA], 0, emptyCrawlState⟩ =
      some ⟨[], 1, { emptyCrawlState with visited := emptyCrawlState.visited ++ [uA] }⟩ :=
  (c2_fetch_failure fetchNone 5 uA [] 0 emptyCrawlState (by decide) (by decide) rfl).1

/-- C3 (counterexample): with a configured cap of 1, two crawl invocations
sharing the visited set leave 2 visited URLs — the page counter is reset per
invocation, so across shared-state invocations the cardinality of VisitedSet
does exceed the cap. -/
theorem c3_cap_exceeded_multiseed :
    (crawl fetchNone 1 3 uB (crawl fetchNone 1 3 uA emptyCrawlState)).visited = [uA, uB] ∧
    (crawl fetchNone 1 3 uB (crawl fetchNone 1 3 uA emptyCrawlState)).visited.length > 1 := by
  exact ⟨rfl, by decide⟩

/-- C3 (amended): a single crawl invocation adds at most `maxPages` URLs to
the visited set (so a run from a fresh state keeps its cardinality within the
cap), and a dequeued URL that is already visited is discarded without
touching the counter or the state. -/
theorem c3_cap_per_invocation (fetch : Url → Option Soup) (mp fuel : Nat) (start : Url)
    (st : CrawlState) :
    (crawl fetch mp fuel start st).visited.length ≤ st.visited.length + mp ∧
    (∀ u rest k st', u ∈ CrawlState.visited st' → k < mp →
      crawlStep fetch mp ⟨u :: rest, k, st'⟩ = some ⟨rest, k, st'⟩) := by
  constructor
  · have h := visited_bound_crawlLoop fetch mp fuel (crawlInit start st)
    simpa [crawl, save_progress, crawlInit] using h
  · exact fun u rest k st' hv hk => crawlStep_skip fetch mp u rest k st' hk hv

/-- C3 witness: the per-invocation bound and the skip step at concrete
inputs. -/
theorem c3_cap_per_invocation_witness :
    (crawl fetchNone 1 3 uA emptyCrawlState).visited.length ≤
      emptyCrawlState.visited.length + 1 :=
  (c3_cap_per_invocation fetchNone 1 3 uA emptyCrawlState).1

/-- C4 (counterexample): a later crawl invocation on shared state enqueues its
seed unconditionally (`urls_to_visit = [start_url]`), so a seed already in
VisitedSet sits in the frontier queue, violating the claimed invariant that no
URL in VisitedSet is ever enqueued. -/
theorem c4_seed_reenqueued :
    uA ∈ (crawl fetchNone 5 5 uA emptyCrawlState).visited ∧
    (crawlInit uA (crawl fetchNone 5 5 uA emptyCrawlState)).queue = [uA] ∧
    ¬ QInv (crawlInit uA (crawl fetchNone 5 5 uA emptyCrawlState)) := by
  refine ⟨by decide, rfl, by decide⟩

/-- C4 (amended): the queue invariant — FIFO discipline, no duplicate entries,
no visited URL in the queue — is preserved by every loop iteration, and holds
initially whenever the invocation's seed is not yet visited; the unchecked
case is exactly an already-visited seed, which the first iteration then
discards.  The FIFO conjunct: each iteration consumes the head and only
appends at the tail. -/
theorem c4_frontier_invariant (fetch : Url → Option Soup) (mp : Nat) :
    (∀ n c c', QInv c → stepN fetch mp n c = some c' → QInv c') ∧
    (∀ start st, start ∉ CrawlState.visited st → QInv (crawlInit start st)) ∧
    (∀ c c' u rest, crawlStep fetch mp c = some c' → c.queue = u :: rest →
      ∃ ext, c'.queue = rest ++ ext) := by
  refine ⟨fun n c c' hq h => qinv_stepN fetch mp n c c' hq h, ?_, ?_⟩
  · intro start st hs
    exact ⟨List.nodup_singleton start, by simpa [crawlInit] using hs⟩
  · intro c c' u rest h hqueue
    obtain ⟨q, k, st⟩ := c
    dsimp only at hqueue
    subst hqueue
    by_cases hk : k < mp
    · by_cases hv : u ∈ st.visited
      · rw [crawlStep_skip fetch mp u rest k st hk hv] at h
        obtain rfl := Option.some_injective _ h
        exact ⟨[], by simp⟩
      · cases hf : fetch u with
        | none =>
            rw [crawlStep_fail fetch mp u rest k st hk hv hf] at h
            obtain rfl := Option.some_injective _ h
            exact ⟨[], by simp⟩
        | some soup =>
            rw [crawlStep_success fetch mp u rest k st soup hk hv hf] at h
            obtain rfl := Option.some_injective _ h
            rw [processPage_queue]
            obtain ⟨ext, hext, -⟩ := addLinks_fst_ext (st.visited ++ [u]) u
              (extract_page_info soup u).links rest st.linkMap
            exact ⟨ext, hext⟩
    · simp [crawlStep, hk] at h

/-- C4 witness: invariant preservation along one concrete step from a fresh
seed. -/
theorem c4_frontier_invariant_witness :
    QInv (crawlInit uA emptyCrawlState) ∧
    QInv ⟨[], 1, { emptyCrawlState with visited := [uA] }⟩ :=
  ⟨(c4_frontier_invariant fetchNone 5).2.1 uA emptyCrawlState (by decide),
   (c4_frontier_invariant fetchNone 5).1 1 (crawlInit uA emptyCrawlState)
     ⟨[], 1, { emptyCrawlState with visited := [uA] }⟩ (by decide) rfl⟩

/-- C5 (counterexample): the code tests `url.endswith(ext)` on the full URL
string, case-sensitively — so a path ending in `.PDF`, and a `.pdf` path
followed by a query string, are both accepted, contradicting the claimed
case-insensitive path-based rejection. -/
theorem c5_ext_check_full_url :
    uPDFupper.path = "/file.PDF" ∧ is_valid_url uPDFupper = true ∧
    uPdfQuery.path = "/file.pdf" ∧ uPdfQuery.query = "x=1" ∧
    is_valid_url uPdfQuery = true := by
  refine ⟨rfl, rfl, rfl, rfl, rfl⟩

/-- C5 (amended): `is_valid_url` rejects exactly the URLs whose full URL
string ends, case-sensitively, in one of the blocked extensions — in
particular every such URL is rejected. -/
theorem c5_ext_rejection (u : Url) (e : String) (he : e ∈ skipExts)
    (hends : strEndsWith (unparse u) e = true) : is_valid_url u = false := by
  unfold is_valid_url
  have hany : skipExts.any (fun e => strEndsWith (unparse u) e) = true :=
    List.any_eq_true.mpr ⟨e, he, hends⟩
  by_cases hh : isSubstringOf docHost u.netloc = true
  · rw [if_pos hh, if_pos hany]
  · rw [if_neg hh]

/-- C5 witness: the lower-case PDF URL is rejected. -/
theorem c5_ext_rejection_witness : is_valid_url uPdf = false :=
  c5_ext_rejection uPdf ".pdf" (by decide) (by decide)

/-- C6 (counterexample): in the nine-link run whose tenth visit is a failed
fetch, the counter reaches 10 during the loop yet no periodic checkpoint is
written — the `% 10` check sits after the fetch-failure `continue` — and the
single checkpoint of the run is the unconditional final one. -/
theorem c6_no_checkpoint_on_failed_tenth :
    (crawlLoop fetch9 1000 30 (crawlInit uSeed emptyCrawlState)).counter = 10 ∧
    (crawlLoop fetch9 1000 30 (crawlInit uSeed emptyCrawlState)).st.checkpoints = [] ∧
    (crawl fetch9 1000 30 uSeed emptyCrawlState).checkpoints.length = 1 := by
  refine ⟨rfl, rfl, rfl⟩

/-- C6 (amended): a periodic checkpoint is written exactly at the successful
visits whose counter is a multiple of 10, and it snapshots the full current
LinkMap and VisitedSet; a failed visit writes none even at a multiple of 10;
one unconditional checkpoint ends every run; and the visited-set size tracks
the counter, so the checkpoint at the 10th visit of a fresh run holds exactly
10 URLs. -/
theorem c6_checkpointing (fetch : Url → Option Soup) (mp : Nat) :
    (∀ st u soup rest k, k % 10 = 0 →
      (processPage st u soup rest k).st.checkpoints =
        st.checkpoints ++ [((processPage st u soup rest k).st.linkMap,
          CrawlState.visited st)]) ∧
    (∀ st u soup rest k, ¬ k % 10 = 0 →
      (processPage st u soup rest k).st.checkpoints = st.checkpoints) ∧
    (∀ u rest k st, k < mp → u ∉ CrawlState.visited st → fetch u = none →
      crawlStep fetch mp ⟨u :: rest, k, st⟩ =
        some ⟨rest, k + 1, { st with visited := st.visited ++ [u] }⟩ ∧
      ({ st with visited := st.visited ++ [u] } : CrawlState).checkpoints =
        st.checkpoints) ∧
    (∀ fuel start st, (crawl fetch mp fuel start st).checkpoints =
      (crawlLoop fetch mp fuel (crawlInit start st)).st.checkpoints ++
        [((crawlLoop fetch mp fuel (crawlInit start st)).st.linkMap,
          (crawlLoop fetch mp fuel (crawlInit start st)).st.visited)]) ∧
    (∀ n c c', stepN fetch mp n c = some c' →
      c'.st.visited.length + c.counter = c.st.visited.length + c'.counter) := by
  refine ⟨?_, ?_, ?_, ?_, ?_⟩
  · intro st u soup rest k hk
    rw [processPage_checkpoints, if_pos hk]
  · intro st u soup rest k hk
    rw [processPage_checkpoints, if_neg hk]
  · intro u rest k st hk hv hf
    exact ⟨crawlStep_fail fetch mp u rest k st hk hv hf, rfl⟩
  · intro fuel start st
    rfl
  · exact fun n c c' h => visited_length_stepN fetch mp n c c' h

/-- C6 witness: the periodic checkpoint at counter 10 on a concrete state. -/
theorem c6_checkpointing_witness :
    CrawlState.checkpoints
        (Config.st
          (processPage { emptyCrawlState with visited := [uSeed] } uSeed soupScenario [] 10)) =
      emptyCrawlState.checkpoints ++
        [(CrawlState.linkMap
            (Config.st
              (processPage { emptyCrawlState with visited := [uSeed] } uSeed soupScenario [] 10)),
          [uSeed])] :=
  (c6_checkpointing fetchScenario 1000).1 { emptyCrawlState with visited := [uSeed] }
    uSeed soupScenario [] 10 (by decide)

/-- C7 (counterexample): a page record whose URL has an empty path is saved to
`index.json`, a file name `load_data` skips, so re-reading the store yields no
record at all for it: the round trip fails for that record. -/
theorem c7_index_page_not_reloaded :
    pageFileName pRoot.url = "index.json" ∧
    load_data (save_page [] pRoot) = [] := by
  refine ⟨rfl, rfl⟩

/-- C7 (amended): for every page record whose computed file name is not one of
the reserved names, saving it and re-reading the store yields exactly the
stored record keyed by its URL, with url, title, content and the ordered
links with their text preserved exactly; and JSON decoding inverts encoding
for every stored record. -/
theorem c7_roundtrip (p : PageRecord)
    (hres : reservedFiles.contains (pageFileName p.url) = false) :
    load_data (save_page [] p) = [((storeRecord p).url, storeRecord p)] ∧
    storeRecord p =
      ⟨unparse p.url, p.title, p.content, p.links.map (fun l => ⟨unparse l.url, l.text⟩)⟩ ∧
    ∀ r : StoredRecord, decodeRecord (encodeRecord r) = some r := by
  refine ⟨?_, rfl, fun r => decodeRecord_encodeRecord r⟩
  show load_data [(pageFileName p.url, encodeRecord (storeRecord p))] = _
  unfold load_data
  rw [List.foldl_cons, List.foldl_nil]
  rw [pageFileName_json p.url, hres]
  simp [decodeRecord_encodeRecord, setA]

/-- C7 witness: the round trip on a concrete record with an ordinary path. -/
theorem c7_roundtrip_witness :
    load_data (save_page [] pSeed) = [((storeRecord pSeed).url, storeRecord pSeed)] :=
  (c7_roundtrip pSeed (by decide)).1

/-- C8: every edge of the exported link graph has its source and its target
among the loaded page-store keys, and every loaded page appears as a node
carrying its record's title. -/
theorem c8_graph_edges_nodes (pages : List (String × StoredRecord)) :
    (∀ e ∈ (build_link_graph pages).2,
      (getA pages e.1.1).isSome = true ∧ (getA pages e.1.2).isSome = true) ∧
    (∀ p ∈ pages, (p.1, p.2.title) ∈ (build_link_graph pages).1) := by
  constructor
  · intro e he
    simp only [build_link_graph] at he
    refine edges_outer_pred pages pages
      (fun p hp => getA_isSome_of_mem pages p hp) [] ?_ e he
    intro e h
    simp at h
  · intro p hp
    simp only [build_link_graph]
    exact List.mem_map_of_mem _ hp

/-- C8 witness: the concrete two-page store, its one edge and one node. -/
theorem c8_graph_edges_nodes_witness :
    ((getA pages0 "a").isSome = true ∧ (getA pages0 "b").isSome = true) ∧
    ("a", "TA") ∈ (build_link_graph pages0).1 :=
  ⟨(c8_graph_edges_nodes pages0).1 (("a", "b"), "tb") (by decide),
   (c8_graph_edges_nodes pages0).2 ("a", ⟨"a", "TA", "ca", [⟨"b", "tb"⟩, ⟨"c", "tc"⟩]⟩)
     (by decide)⟩

/-- C9: across whole crawl invocations the state keeps the relation that
`link_map` has a key exactly for the stored pages with a non-empty links
sequence; a successfully fetched page without the main-content region yields
content "" and links [], adds no `link_map` entry, and enqueues nothing. -/
theorem c9_linkmap_key_iff (fetch : Url → Option Soup) (mp fuel : Nat) (start : Url)
    (st : CrawlState) (hi : Inv st) :
    Inv (crawl fetch mp fuel start st) ∧
    (∀ t u, (extract_page_info ⟨t, none⟩ u).content = "" ∧
      (extract_page_info ⟨t, none⟩ u).links = []) ∧
    (∀ st' u t rest k,
      (processPage st' u ⟨t, none⟩ rest k).queue = rest ∧
      CrawlState.linkMap (Config.st (processPage st' u ⟨t, none⟩ rest k)) =
        CrawlState.linkMap st') := by
  refine ⟨inv_crawl fetch mp fuel start st hi, fun t u => ⟨rfl, rfl⟩, ?_⟩
  intro st' u t rest k
  constructor
  · rw [processPage_queue]
    rfl
  · rw [processPage_linkMap]
    rfl

/-- C9 witness: the relation holds for the fresh state and is carried through
a concrete run. -/
theorem c9_linkmap_key_iff_witness :
    Inv emptyCrawlState ∧ Inv (crawl fetchNone 5 5 uA emptyCrawlState) :=
  ⟨inv_empty, (c9_linkmap_key_iff fetchNone 5 5 uA emptyCrawlState inv_empty).1⟩

/-- C10: the page-file name reads only the URL's path and query, so two
records whose URLs differ only elsewhere (e.g. http vs https) are written to
the same file, the later write replacing the earlier record. -/
theorem c10_filename_ignores_host (r1 r2 : PageRecord)
    (hp : r1.url.path = r2.url.path) (hq : r1.url.query = r2.url.query) :
    pageFileName r1.url = pageFileName r2.url ∧
    ∀ disk, getA (save_page (save_page disk r1) r2) (pageFileName r1.url) =
      some (encodeRecord (storeRecord r2)) := by
  have hname : pageFileName r1.url = pageFileName r2.url := by
    unfold pageFileName
    rw [hp, hq]
  refine ⟨hname, ?_⟩
  intro disk
  rw [hname]
  unfold save_page
  exact getA_setA_same _ _ _

/-- C10 witness: the http record's file is overwritten by the https record
sharing path and query. -/
theorem c10_filename_ignores_host_witness :
    getA (save_page (save_page [] pSeedHttp) pSeed) (pageFileName pSeedHttp.url) =
      some (encodeRecord (storeRecord pSeed)) :=
  (c10_filename_ignores_host pSeedHttp pSeed rfl rfl).2 []

end Arc
